import Mathlib

/-!
# Verification of the `try-rs` interactive selection engine

A shallow embedding of the TUI selection core of `try-rs` (`src/tui.rs`):
the entry model, the fuzzy filtering / ranking pass (`App::update_search`),
the deletion operation (`App::delete_selected`), and the key-driven state
machine of `run_app`, together with proofs of the spec's testable
properties.

Filesystem outcomes (directory removal) and the external fuzzy matcher are
the only non-deterministic / external pieces; the former is passed in as an
explicit `Except` outcome, the latter is modelled from the spec (see
`fuzzy_match`).
-/

namespace TryRs

/-- `AppMode` from `src/tui.rs`: the two interaction modes. -/
inductive AppMode where
  | Normal
  | DeleteConfirm
deriving DecidableEq, Repr

/-- `TryEntry` from `src/tui.rs`: one discovered directory and its derived
metadata.  `SystemTime` values are modelled as `Nat` timestamps. -/
structure TryEntry where
  name : String
  modified : Nat
  created : Nat
  score : Int
  is_git : Bool
  is_mise : Bool
  is_cargo : Bool
  is_maven : Bool
  is_flutter : Bool
  is_go : Bool
  is_python : Bool
deriving DecidableEq, Repr

/-- `query.toList` occurs inside `target` as an ordered, possibly
non-contiguous subsequence of characters. -/
def isSubseqOf : List Char → List Char → Bool
  | [], _ => true
  | _ :: _, [] => false
  | c :: cs, d :: ds => if c == d then isSubseqOf cs ds else isSubseqOf (c :: cs) ds

/-- Modelled from the spec: the score an entry receives from the fuzzy
matcher.  The matcher is the external `fuzzy_matcher` crate
(`SkimMatcherV2`), not part of this repository; the spec leaves the exact
score implementation-defined, requiring only that it is deterministic.
None of the verified properties depend on the particular values. -/
def fuzzyScore (name query : String) : Int :=
  (2 * query.length : Int) - name.length

/-- Modelled from the spec: `SkimMatcherV2::fuzzy_match(name, query)` from
the external `fuzzy_matcher` crate.  Per the spec it returns a score
exactly when `query`'s characters occur in `name` as an ordered, possibly
non-contiguous subsequence, and `None` otherwise. -/
def fuzzy_match (name query : String) : Option Int :=
  if isSubseqOf query.toList name.toList then some (fuzzyScore name query) else none

/-- Insert an entry into a list sorted by descending `score`, placing it
before the first element whose score is not larger.  This realises the
stability of Rust's `sort_by`: the inserted element comes from earlier in
the input than everything in the sorted tail, so it goes in front of
equal-scored elements. -/
def insertByScore (x : TryEntry) : List TryEntry → List TryEntry
  | [] => [x]
  | y :: ys => if y.score ≤ x.score then x :: y :: ys else y :: insertByScore x ys

/-- Stable sort by descending `score`: the model of
`sort_by(|a, b| b.score.cmp(&a.score))` in `App::update_search`. -/
def sortByScoreDesc : List TryEntry → List TryEntry
  | [] => []
  | x :: xs => insertByScore x (sortByScoreDesc xs)

/-- The `filter_map` pass of `App::update_search`: keep the entries the
matcher accepts, with `score` overwritten by the matcher's score. -/
def matchedEntries (entries : List TryEntry) (query : String) : List TryEntry :=
  entries.filterMap fun entry =>
    (fuzzy_match entry.name query).map fun score => { entry with score := score }

/-- The pure ranking pass at the heart of `App::update_search`
(`src/tui.rs` lines 144-161): identity on an empty query, otherwise
filter by the matcher and sort by descending score (stably). -/
def rank (entries : List TryEntry) (query : String) : List TryEntry :=
  if query.isEmpty then entries
  else sortByScoreDesc (matchedEntries entries query)

/-- `App` from `src/tui.rs`, restricted to the fields the selection engine
reads or writes (`theme` is consumed only by rendering; `base_path` is
modelled as a string). -/
structure App where
  query : String
  all_entries : List TryEntry
  filtered_entries : List TryEntry
  selected_index : Nat
  should_quit : Bool
  final_selection : Option String
  mode : AppMode
  status_message : Option String
  base_path : String
  editor_cmd : Option String
  wants_editor : Bool
deriving DecidableEq, Repr

/-- `App::update_search` (`src/tui.rs` lines 141-163): recompute
`filtered_entries` from `all_entries` and the query, and reset the
selection to the top. -/
def App.update_search (app : App) : App :=
  { app with
    filtered_entries := rank app.all_entries app.query
    selected_index := 0 }

/-- `App::delete_selected` (`src/tui.rs` lines 166-186).  The outcome of
`fs::remove_dir_all` is external input, passed as `fs_remove` (`.error e`
carries the I/O error's description). -/
def App.delete_selected (fs_remove : Except String Unit) (app : App) : App :=
  let app' :=
    match app.filtered_entries.get? app.selected_index with
    | some entry =>
        let entry_name := entry.name
        let path_to_remove := app.base_path ++ "/" ++ entry_name
        match fs_remove with
        | Except.ok _ =>
            let a1 := { app with
              all_entries := app.all_entries.filter fun e => e.name != entry_name }
            let a2 := a1.update_search
            { a2 with status_message := some ("Deleted: " ++ path_to_remove) }
        | Except.error err =>
            { app with status_message := some ("Error deleting: " ++ err) }
    | none => app
  { app' with mode := AppMode.Normal }

/-- A key press, as the `run_app` match sees it: a character with its
CONTROL-modifier flag, or one of the special keys the handler matches on
(`other` stands for every key code that falls into the wildcard arm). -/
inductive Key where
  | char (c : Char) (ctrl : Bool)
  | backspace
  | up
  | down
  | enter
  | esc
  | other
deriving DecidableEq, Repr

/-- One iteration of the key-handling match in `run_app` (`src/tui.rs`
lines 477-552).  Returns `none` exactly where the Rust code performs an
unchecked index `filtered_entries[selected_index]` that would panic
(Enter and Ctrl-E with a non-empty filtered list but an out-of-range
cursor); every other path is total. -/
def step (app : App) (key : Key) (fs_remove : Except String Unit) : Option App :=
  match app.mode with
  | AppMode.Normal =>
    match key with
    | Key.char c ctrl =>
        if c == 'c' && ctrl then
          some { app with should_quit := true }
        else if c == 'd' && ctrl then
          some (if app.filtered_entries.isEmpty then app
                else { app with mode := AppMode.DeleteConfirm })
        else if c == 'e' && ctrl then
          match app.editor_cmd with
          | some _ =>
              if !app.filtered_entries.isEmpty then
                match app.filtered_entries.get? app.selected_index with
                | some entry =>
                    some { app with
                      final_selection := some entry.name
                      wants_editor := true
                      should_quit := true }
                | none => none
              else if !app.query.isEmpty then
                some { app with
                  final_selection := some app.query
                  wants_editor := true
                  should_quit := true }
              else
                some app
          | none =>
              some { app with
                status_message := some "No editor configured in config.toml" }
        else
          some (App.update_search
            { app with query := app.query.push c, status_message := none })
    | Key.backspace =>
        some (App.update_search { app with query := app.query.dropRight 1 })
    | Key.up =>
        some (if app.selected_index > 0 then
                { app with selected_index := app.selected_index - 1 }
              else app)
    | Key.down =>
        some (if app.selected_index < app.filtered_entries.length - 1 then
                { app with selected_index := app.selected_index + 1 }
              else app)
    | Key.enter =>
        if !app.filtered_entries.isEmpty then
          match app.filtered_entries.get? app.selected_index with
          | some entry =>
              some { app with
                final_selection := some entry.name
                should_quit := true }
          | none => none
        else if !app.query.isEmpty then
          some { app with final_selection := some app.query, should_quit := true }
        else
          some { app with should_quit := true }
    | Key.esc => some { app with should_quit := true }
    | Key.other => some app
  | AppMode.DeleteConfirm =>
    match key with
    | Key.char c ctrl =>
        if c == 'y' || c == 'Y' then
          some (app.delete_selected fs_remove)
        else if c == 'n' || c == 'N' then
          some { app with mode := AppMode.Normal }
        else if c == 'c' && ctrl then
          some { app with should_quit := true }
        else
          some app
    | Key.esc => some { app with mode := AppMode.Normal }
    | _ => some app

/-- The state `App::new` hands to the event loop: the scanned entries
(already sorted most-recent-first by the constructor; the proofs hold for
an arbitrary scan result) shown unfiltered, cursor at the top, Normal
mode, nothing selected. -/
def App.init (entries : List TryEntry) (base : String)
    (editor_cmd : Option String) : App :=
  { query := ""
    all_entries := entries
    filtered_entries := entries
    selected_index := 0
    should_quit := false
    final_selection := none
    mode := AppMode.Normal
    status_message := none
    base_path := base
    editor_cmd := editor_cmd
    wants_editor := false }

/-- States the `run_app` loop can be in: the constructed initial state,
closed under key-handling steps taken from a not-yet-quit state (the
`while !app.should_quit` guard). -/
inductive Reachable : App → Prop where
  | init (entries : List TryEntry) (base : String) (editor_cmd : Option String) :
      Reachable (App.init entries base editor_cmd)
  | next (s s' : App) (k : Key) (fs_remove : Except String Unit) :
      Reachable s → s.should_quit = false → step s k fs_remove = some s' →
      Reachable s'

/-- The effect of typing one printable character `c` with no modifier in
Normal mode (the final `else` arm of the `KeyCode::Char(c)` handler):
append to the query, clear the status, re-run the search. -/
def typeChar (c : Char) (s : App) : App :=
  App.update_search { s with query := s.query.push c, status_message := none }

/-- Typing a sequence of printable characters, one `typeChar` at a time. -/
def typeChars (cs : List Char) (s : App) : App :=
  cs.foldl (fun a c => typeChar c a) s

/-- A concrete entry used to instantiate proved statements. -/
def sampleEntry : TryEntry :=
  { name := "alpha", modified := 100, created := 50, score := 0,
    is_git := false, is_mise := false, is_cargo := false, is_maven := false,
    is_flutter := false, is_go := false, is_python := false }

/-- A second concrete entry used to instantiate proved statements. -/
def sampleEntryB : TryEntry :=
  { name := "beta", modified := 200, created := 60, score := 0,
    is_git := true, is_mise := false, is_cargo := true, is_maven := false,
    is_flutter := false, is_go := false, is_python := false }

/-- The loop invariant of `run_app`: the cursor is in range whenever the
filtered list is non-empty, and until the quit flag is set no final
selection or editor intent has been recorded. -/
def Inv (s : App) : Prop :=
  (s.filtered_entries ≠ [] → s.selected_index < s.filtered_entries.length) ∧
  (s.should_quit = false → s.wants_editor = false ∧ s.final_selection = none)

theorem inv_init (entries : List TryEntry) (base : String)
    (editor_cmd : Option String) : Inv (App.init entries base editor_cmd) := by
  refine ⟨fun hne => ?_, fun _ => ⟨rfl, rfl⟩⟩
  simpa [App.init] using List.length_pos.mpr hne

theorem inv_update_search (s : App) (h : Inv s) : Inv s.update_search := by
  refine ⟨fun hne => ?_, h.2⟩
  simpa [App.update_search] using
    List.length_pos.mpr (by simpa [App.update_search] using hne)

theorem inv_delete_selected (fs_remove : Except String Unit) (s : App)
    (h : Inv s) : Inv (s.delete_selected fs_remove) := by
  unfold App.delete_selected
  cases hget : s.filtered_entries.get? s.selected_index with
  | none => exact ⟨h.1, h.2⟩
  | some entry =>
      cases fs_remove with
      | ok u =>
          have h' : Inv (App.update_search
              { s with all_entries :=
                  s.all_entries.filter fun e => e.name != entry.name }) :=
            inv_update_search _ ⟨h.1, h.2⟩
          exact ⟨h'.1, h'.2⟩
      | error err => exact ⟨h.1, h.2⟩

theorem inv_step {s s' : App} {k : Key} {fs_remove : Except String Unit}
    (h : Inv s) (hs : step s k fs_remove = some s') : Inv s' := by
  obtain ⟨h1, h2⟩ := h
  unfold step at hs
  cases hmode : s.mode <;> rw [hmode] at hs <;> cases k <;>
    simp only [] at hs
  case Normal.char c ctrl =>
    by_cases hc : (c == 'c' && ctrl) = true
    · rw [if_pos hc] at hs
      cases hs
      exact ⟨h1, by simp⟩
    · rw [if_neg hc] at hs
      by_cases hd : (c == 'd' && ctrl) = true
      · rw [if_pos hd] at hs
        cases hs
        by_cases hemp : s.filtered_entries.isEmpty = true
        · rw [if_pos hemp]; exact ⟨h1, h2⟩
        · rw [if_neg hemp]; exact ⟨h1, h2⟩
      · rw [if_neg hd] at hs
        by_cases he : (c == 'e' && ctrl) = true
        · rw [if_pos he] at hs
          cases hed : s.editor_cmd with
          | some cmd =>
              rw [hed] at hs
              by_cases hemp : s.filtered_entries.isEmpty = true
              · simp only [hemp, Bool.not_true] at hs
                simp only [Bool.false_eq_true, if_false] at hs
                by_cases hq : s.query.isEmpty = true
                · simp only [hq, Bool.not_true, Bool.false_eq_true, if_false] at hs
                  cases hs
                  exact ⟨h1, h2⟩
                · simp only [hq, Bool.not_false, if_true] at hs
                  cases hs
                  exact ⟨h1, by simp⟩
              · simp only [hemp, Bool.not_false, if_true] at hs
                cases hget : s.filtered_entries.get? s.selected_index with
                | some entry =>
                    rw [hget] at hs
                    cases hs
                    exact ⟨h1, by simp⟩
                | none => rw [hget] at hs; cases hs
          | none =>
              rw [hed] at hs
              cases hs
              exact ⟨h1, h2⟩
        · rw [if_neg he] at hs
          cases hs
          exact inv_update_search _ ⟨h1, h2⟩
  case Normal.backspace =>
    cases hs
    exact inv_update_search _ ⟨h1, h2⟩
  case Normal.up =>
    cases hs
    by_cases hpos : s.selected_index > 0
    · rw [if_pos hpos]
      exact ⟨fun hne => lt_of_le_of_lt (Nat.sub_le _ _) (h1 hne), h2⟩
    · rw [if_neg hpos]
      exact ⟨h1, h2⟩
  case Normal.down =>
    cases hs
    by_cases hlt : s.selected_index < s.filtered_entries.length - 1
    · rw [if_pos hlt]
      refine ⟨fun _ => ?_, h2⟩
      show s.selected_index + 1 < s.filtered_entries.length
      omega
    · rw [if_neg hlt]
      exact ⟨h1, h2⟩
  case Normal.enter =>
    by_cases hemp : s.filtered_entries.isEmpty = true
    · simp only [hemp, Bool.not_true, Bool.false_eq_true, if_false] at hs
      by_cases hq : s.query.isEmpty = true
      · simp only [hq, Bool.not_true, Bool.false_eq_true, if_false] at hs
        cases hs
        exact ⟨h1, by simp⟩
      · simp only [hq, Bool.not_false, if_true] at hs
        cases hs
        exact ⟨h1, by simp⟩
    · simp only [hemp, Bool.not_false, if_true] at hs
      cases hget : s.filtered_entries.get? s.selected_index with
      | some entry =>
          rw [hget] at hs
          cases hs
          exact ⟨h1, by simp⟩
      | none => rw [hget] at hs; cases hs
  case Normal.esc =>
    cases hs
    exact ⟨h1, by simp⟩
  case Normal.other =>
    cases hs
    exact ⟨h1, h2⟩
  case DeleteConfirm.char c ctrl =>
    by_cases hy : (c == 'y' || c == 'Y') = true
    · rw [if_pos hy] at hs
      cases hs
      exact inv_delete_selected _ _ ⟨h1, h2⟩
    · rw [if_neg hy] at hs
      by_cases hn : (c == 'n' || c == 'N') = true
      · rw [if_pos hn] at hs
        cases hs
        exact ⟨h1, h2⟩
      · rw [if_neg hn] at hs
        by_cases hc : (c == 'c' && ctrl) = true
        · rw [if_pos hc] at hs
          cases hs
          exact ⟨h1, by simp⟩
        · rw [if_neg hc] at hs
          cases hs
          exact ⟨h1, h2⟩
  case DeleteConfirm.backspace =>
    cases hs; exact ⟨h1, h2⟩
  case DeleteConfirm.up =>
    cases hs; exact ⟨h1, h2⟩
  case DeleteConfirm.down =>
    cases hs; exact ⟨h1, h2⟩
  case DeleteConfirm.enter =>
    cases hs; exact ⟨h1, h2⟩
  case DeleteConfirm.esc =>
    cases hs; exact ⟨h1, h2⟩
  case DeleteConfirm.other =>
    cases hs; exact ⟨h1, h2⟩

theorem inv_reachable {s : App} (h : Reachable s) : Inv s := by
  induction h with
  | init entries base editor_cmd => exact inv_init entries base editor_cmd
  | next s s' k fs_remove _ _ hstep ih => exact inv_step ih hstep

theorem mem_insertByScore {x y : TryEntry} {l : List TryEntry} :
    y ∈ insertByScore x l ↔ y = x ∨ y ∈ l := by
  induction l with
  | nil => simp [insertByScore]
  | cons z zs ih =>
      unfold insertByScore
      by_cases h : z.score ≤ x.score
      · rw [if_pos h]
        simp [List.mem_cons]
      · rw [if_neg h]
        simp [List.mem_cons, ih]
        tauto

theorem mem_sortByScoreDesc {y : TryEntry} {l : List TryEntry} :
    y ∈ sortByScoreDesc l ↔ y ∈ l := by
  induction l with
  | nil => simp [sortByScoreDesc]
  | cons x xs ih =>
      unfold sortByScoreDesc
      rw [mem_insertByScore, ih, List.mem_cons]

theorem head_insertByScore (x : TryEntry) (l : List TryEntry) :
    (insertByScore x l).head? = some x ∨ (insertByScore x l).head? = l.head? := by
  cases l with
  | nil => left; rfl
  | cons y ys =>
      unfold insertByScore
      by_cases h : y.score ≤ x.score
      · rw [if_pos h]; left; rfl
      · rw [if_neg h]; right; rfl

theorem chain_insertByScore {x : TryEntry} {l : List TryEntry}
    (h : l.Chain' (fun a b => b.score ≤ a.score)) :
    (insertByScore x l).Chain' (fun a b => b.score ≤ a.score) := by
  induction l with
  | nil => simp [insertByScore]
  | cons z zs ih =>
      unfold insertByScore
      by_cases hz : z.score ≤ x.score
      · rw [if_pos hz]
        exact List.chain'_cons.mpr ⟨hz, h⟩
      · rw [if_neg hz]
        have hzs := (List.chain'_cons'.mp h).2
        refine List.chain'_cons'.mpr ⟨?_, ih hzs⟩
        intro b hb
        rcases head_insertByScore x zs with hh | hh
        · rw [hh] at hb
          have hb' : b = x := by
            have := by simpa using hb
            exact this.symm
          subst hb'
          exact le_of_lt (lt_of_not_le hz)
        · rw [hh] at hb
          exact (List.chain'_cons'.mp h).1 b hb

theorem chain_sortByScoreDesc (l : List TryEntry) :
    (sortByScoreDesc l).Chain' (fun a b => b.score ≤ a.score) := by
  induction l with
  | nil => simp [sortByScoreDesc]
  | cons x xs ih =>
      unfold sortByScoreDesc
      exact chain_insertByScore ih

theorem insertByScore_of_le {x : TryEntry} {l : List TryEntry}
    (h : ∀ b ∈ l.head?, b.score ≤ x.score) : insertByScore x l = x :: l := by
  cases l with
  | nil => rfl
  | cons y ys =>
      unfold insertByScore
      rw [if_pos (h y rfl)]

theorem sortByScoreDesc_of_sorted {l : List TryEntry}
    (h : l.Chain' (fun a b => b.score ≤ a.score)) : sortByScoreDesc l = l := by
  induction l with
  | nil => rfl
  | cons x xs ih =>
      unfold sortByScoreDesc
      rw [ih (List.chain'_cons'.mp h).2]
      exact insertByScore_of_le (List.chain'_cons'.mp h).1

theorem filter_insertByScore_ne {x : TryEntry} {l : List TryEntry} {sc : Int}
    (hx : x.score ≠ sc) :
    (insertByScore x l).filter (fun e => e.score == sc) =
      l.filter (fun e => e.score == sc) := by
  induction l with
  | nil => simp [insertByScore, hx]
  | cons y ys ih =>
      unfold insertByScore
      by_cases h : y.score ≤ x.score
      · rw [if_pos h]
        simp only [List.filter_cons]
        simp [hx]
      · rw [if_neg h]
        simp only [List.filter_cons, ih]

theorem filter_insertByScore_eq {x : TryEntry} {l : List TryEntry} {sc : Int}
    (hx : x.score = sc) :
    (insertByScore x l).filter (fun e => e.score == sc) =
      x :: l.filter (fun e => e.score == sc) := by
  induction l with
  | nil => simp [insertByScore, hx]
  | cons y ys ih =>
      unfold insertByScore
      by_cases h : y.score ≤ x.score
      · rw [if_pos h]
        simp only [List.filter_cons]
        simp [hx]
      · rw [if_neg h]
        have hy : y.score ≠ sc := by omega
        simp only [List.filter_cons, ih]
        simp [hy]

theorem filter_sortByScoreDesc (l : List TryEntry) (sc : Int) :
    (sortByScoreDesc l).filter (fun e => e.score == sc) =
      l.filter (fun e => e.score == sc) := by
  induction l with
  | nil => rfl
  | cons x xs ih =>
      unfold sortByScoreDesc
      by_cases hx : x.score = sc
      · rw [filter_insertByScore_eq hx, ih, List.filter_cons]
        simp [hx]
      · rw [filter_insertByScore_ne hx, ih, List.filter_cons]
        simp [hx]

theorem mem_matchedEntries {entries : List TryEntry} {q : String} {x : TryEntry} :
    x ∈ matchedEntries entries q ↔
      ∃ e ∈ entries, isSubseqOf q.toList e.name.toList = true ∧
        x = { e with score := fuzzyScore e.name q } := by
  unfold matchedEntries
  rw [List.mem_filterMap]
  constructor
  · rintro ⟨e, he, hfe⟩
    by_cases hsub : isSubseqOf q.toList e.name.toList = true
    · refine ⟨e, he, hsub, ?_⟩
      rw [fuzzy_match, if_pos hsub] at hfe
      simp only [Option.map_some', Option.some.injEq] at hfe
      exact hfe.symm
    · rw [fuzzy_match, if_neg hsub] at hfe
      simp at hfe
  · rintro ⟨e, he, hsub, rfl⟩
    refine ⟨e, he, ?_⟩
    rw [fuzzy_match, if_pos hsub]
    rfl

theorem mem_rank {entries : List TryEntry} {q : String} {x : TryEntry}
    (hq : q.isEmpty = false) :
    x ∈ rank entries q ↔
      ∃ e ∈ entries, isSubseqOf q.toList e.name.toList = true ∧
        x = { e with score := fuzzyScore e.name q } := by
  unfold rank
  rw [hq]
  simp only [Bool.false_eq_true, if_false]
  rw [mem_sortByScoreDesc, mem_matchedEntries]

theorem matched_fixed {entries : List TryEntry} {q : String} {x : TryEntry}
    (hx : x ∈ matchedEntries entries q) :
    (fuzzy_match x.name q).map (fun score => { x with score := score }) = some x := by
  rcases mem_matchedEntries.mp hx with ⟨e, _, hsub, rfl⟩
  show (fuzzy_match e.name q).map _ = _
  rw [fuzzy_match, if_pos hsub]
  rfl

theorem filterMap_id_of_fixed {l : List TryEntry} {f : TryEntry → Option TryEntry}
    (h : ∀ x ∈ l, f x = some x) : l.filterMap f = l := by
  induction l with
  | nil => rfl
  | cons x xs ih =>
      rw [List.filterMap_cons, h x (List.mem_cons_self x xs)]
      rw [ih fun y hy => h y (List.mem_cons_of_mem x hy)]

theorem rank_names_sub {entries : List TryEntry} {q : String} :
    ∀ x ∈ rank entries q, ∃ y ∈ entries, y.name = x.name := by
  intro x hx
  unfold rank at hx
  by_cases hq : q.isEmpty = true
  · rw [if_pos hq] at hx
    exact ⟨x, hx, rfl⟩
  · rw [if_neg hq] at hx
    rcases mem_matchedEntries.mp (mem_sortByScoreDesc.mp hx) with ⟨e, he, _, rfl⟩
    exact ⟨e, he, rfl⟩

theorem isEmpty_false_of_ne_nil {l : List TryEntry} (h : l ≠ []) :
    l.isEmpty = false := by
  cases l with
  | nil => exact absurd rfl h
  | cons a as => rfl

theorem query_isEmpty_false {q : String} (h : q ≠ "") : q.isEmpty = false := by
  cases hh : q.isEmpty
  · rfl
  · exact absurd ((String.isEmpty_iff q).mp hh) h

theorem step_char_plain (s : App) (c : Char) (fs_remove : Except String Unit)
    (hm : s.mode = AppMode.Normal) :
    step s (Key.char c false) fs_remove = some (typeChar c s) := by
  unfold step
  rw [hm]
  simp only [Bool.and_false, Bool.false_eq_true, if_false, typeChar]
  rw [hm]

theorem typeChars_props (cs : List Char) (s : App) (hr : Reachable s)
    (hm : s.mode = AppMode.Normal) (hq : s.should_quit = false) :
    Reachable (typeChars cs s) ∧
    (typeChars cs s).mode = AppMode.Normal ∧
    (typeChars cs s).should_quit = false ∧
    (typeChars cs s).all_entries = s.all_entries ∧
    (typeChars cs s).query = cs.foldl String.push s.query := by
  induction cs generalizing s with
  | nil => exact ⟨hr, hm, hq, rfl, rfl⟩
  | cons c cs ih =>
      have hstep : step s (Key.char c false) (Except.ok ()) = some (typeChar c s) :=
        step_char_plain s c _ hm
      have hr' : Reachable (typeChar c s) :=
        Reachable.next s (typeChar c s) (Key.char c false) (Except.ok ()) hr hq hstep
      have h := ih (typeChar c s) hr' hm hq
      exact ⟨h.1, h.2.1, h.2.2.1, h.2.2.2.1, h.2.2.2.2⟩

theorem matchedEntries_id_of_fixed {l : List TryEntry} {q : String}
    (h : ∀ x ∈ l,
      (fuzzy_match x.name q).map (fun score => { x with score := score }) = some x) :
    matchedEntries l q = l :=
  filterMap_id_of_fixed h

/-- C5: ranking with the empty query is the identity projection on the
entry collection: the original order is kept, nothing is excluded and
nothing is re-sorted. -/
theorem C5_rank_empty_query_identity (entries : List TryEntry) :
    rank entries "" = entries := rfl

/-- C4: for every non-empty query, an entry appears in the ranked result
exactly when its name contains the query's characters as an ordered,
possibly non-contiguous subsequence, and every excluded entry does not. -/
theorem C4_rank_membership (entries : List TryEntry) (q : String) (hq : q ≠ "") :
    (∀ x ∈ rank entries q, isSubseqOf q.toList x.name.toList = true) ∧
    (∀ e ∈ entries, isSubseqOf q.toList e.name.toList = true →
      ({ e with score := fuzzyScore e.name q } : TryEntry) ∈ rank entries q) ∧
    (∀ e ∈ entries, isSubseqOf q.toList e.name.toList = false →
      ∀ sc : Int, ({ e with score := sc } : TryEntry) ∉ rank entries q) := by
  have hqe : q.isEmpty = false := query_isEmpty_false hq
  refine ⟨?_, ?_, ?_⟩
  · intro x hx
    rcases (mem_rank hqe).mp hx with ⟨e, _, hsub, rfl⟩
    exact hsub
  · intro e he hsub
    exact (mem_rank hqe).mpr ⟨e, he, hsub, rfl⟩
  · intro e _ hsub sc hmem
    rcases (mem_rank hqe).mp hmem with ⟨e2, _, hsub2, heq⟩
    have hname : e.name = e2.name := by
      have h := congrArg TryEntry.name heq
      simpa using h
    rw [hname, hsub2] at hsub
    cases hsub

/-- C4 witness: with entries `alpha` and `beta` and query `"ah"`,
`alpha` matches as a subsequence and `beta` is excluded. -/
theorem C4_rank_membership_witness :
    (∀ x ∈ rank [sampleEntry, sampleEntryB] "ah",
      isSubseqOf "ah".toList x.name.toList = true) ∧
    (∀ e ∈ [sampleEntry, sampleEntryB],
      isSubseqOf "ah".toList e.name.toList = true →
      ({ e with score := fuzzyScore e.name "ah" } : TryEntry) ∈
        rank [sampleEntry, sampleEntryB] "ah") ∧
    (∀ e ∈ [sampleEntry, sampleEntryB],
      isSubseqOf "ah".toList e.name.toList = false →
      ∀ sc : Int, ({ e with score := sc } : TryEntry) ∉
        rank [sampleEntry, sampleEntryB] "ah") :=
  C4_rank_membership [sampleEntry, sampleEntryB] "ah" (by decide)

/-- C6: ranking is idempotent — re-ranking an already-ranked,
already-filtered result with the same query returns it unchanged — and
for a non-empty query the ranked result is ordered by descending score,
equal-score entries keeping the stable order of the filtered input. -/
theorem C6_rank_idempotent (entries : List TryEntry) (q : String) :
    rank (rank entries q) q = rank entries q ∧
    (q ≠ "" →
      (rank entries q).Chain' (fun a b => b.score ≤ a.score) ∧
      ∀ sc : Int, (rank entries q).filter (fun e => e.score == sc) =
        (matchedEntries entries q).filter (fun e => e.score == sc)) := by
  by_cases hq : q.isEmpty = true
  · have hq' : q = "" := (String.isEmpty_iff q).mp hq
    subst hq'
    exact ⟨rfl, fun h => absurd rfl h⟩
  · have hqe : q.isEmpty = false := by
      cases hh : q.isEmpty
      · rfl
      · exact absurd hh hq
    have hrank : ∀ l : List TryEntry,
        rank l q = sortByScoreDesc (matchedEntries l q) := by
      intro l
      unfold rank
      rw [hqe]
      simp
    have hfix : matchedEntries (rank entries q) q = rank entries q := by
      apply matchedEntries_id_of_fixed
      intro x hx
      rw [hrank entries] at hx
      exact matched_fixed (mem_sortByScoreDesc.mp hx)
    constructor
    · calc rank (rank entries q) q
          = sortByScoreDesc (matchedEntries (rank entries q) q) :=
            hrank (rank entries q)
        _ = sortByScoreDesc (rank entries q) := by rw [hfix]
        _ = sortByScoreDesc (sortByScoreDesc (matchedEntries entries q)) := by
            rw [hrank entries]
        _ = sortByScoreDesc (matchedEntries entries q) :=
            sortByScoreDesc_of_sorted (chain_sortByScoreDesc _)
        _ = rank entries q := (hrank entries).symm
    · intro _
      refine ⟨?_, fun sc => ?_⟩
      · rw [hrank]
        exact chain_sortByScoreDesc _
      · rw [hrank]
        exact filter_sortByScoreDesc _ sc

/-- C6 witness: idempotence and sortedness at a concrete collection and
query. -/
theorem C6_rank_idempotent_witness :
    rank (rank [sampleEntry, sampleEntryB] "a") "a" =
      rank [sampleEntry, sampleEntryB] "a" ∧
    ("a" ≠ "" →
      (rank [sampleEntry, sampleEntryB] "a").Chain' (fun a b => b.score ≤ a.score) ∧
      ∀ sc : Int,
        (rank [sampleEntry, sampleEntryB] "a").filter (fun e => e.score == sc) =
        (matchedEntries [sampleEntry, sampleEntryB] "a").filter
          (fun e => e.score == sc)) :=
  C6_rank_idempotent [sampleEntry, sampleEntryB] "a"

/-- C1: in Normal mode, Enter records the name at the current cursor
(never the raw query) with the editor flag still false when the filtered
list is non-empty, records the raw query with the editor flag false when
the filtered list is empty but the query is non-empty, and sets the quit
flag in both cases. -/
theorem C1_confirm_transition (s : App) (fs_remove : Except String Unit)
    (hr : Reachable s) (hm : s.mode = AppMode.Normal)
    (hq : s.should_quit = false) :
    (s.filtered_entries ≠ [] →
      ∃ entry s', s.filtered_entries.get? s.selected_index = some entry ∧
        step s Key.enter fs_remove = some s' ∧
        s'.final_selection = some entry.name ∧
        s'.wants_editor = false ∧ s'.should_quit = true) ∧
    (s.filtered_entries = [] → s.query ≠ "" →
      ∃ s', step s Key.enter fs_remove = some s' ∧
        s'.final_selection = some s.query ∧
        s'.wants_editor = false ∧ s'.should_quit = true) := by
  have hinv := inv_reachable hr
  have hwe : s.wants_editor = false := (hinv.2 hq).1
  constructor
  · intro hne
    have hlen := hinv.1 hne
    cases hget : s.filtered_entries.get? s.selected_index with
    | none =>
        have := List.get?_eq_none.mp hget
        omega
    | some entry =>
        refine ⟨entry,
          { s with final_selection := some entry.name, should_quit := true },
          rfl, ?_, rfl, hwe, rfl⟩
        unfold step
        rw [hm]
        rw [isEmpty_false_of_ne_nil hne, hget]
        rfl
  · intro hnil hquery
    refine ⟨{ s with final_selection := some s.query, should_quit := true },
      ?_, rfl, hwe, rfl⟩
    unfold step
    rw [hm]
    rw [hnil]
    rw [query_isEmpty_false hquery]
    rfl

/-- C1 witness: starting from an empty scan and typing `newproj`, Enter
yields the raw query `newproj` with the editor flag false. -/
theorem C1_confirm_transition_witness :
    ∃ s', step (typeChars "newproj".toList (App.init [] "tries" none))
        Key.enter (Except.ok ()) = some s' ∧
      s'.final_selection = some "newproj" ∧
      s'.wants_editor = false ∧ s'.should_quit = true := by
  have hp := typeChars_props "newproj".toList (App.init [] "tries" none)
    (Reachable.init [] "tries" none) rfl rfl
  have h := (C1_confirm_transition _ (Except.ok ()) hp.1 hp.2.1 hp.2.2.1).2
    (by decide) (by decide)
  rcases h with ⟨s', h1, h2, h3, h4⟩
  exact ⟨s', h1, h2.trans (by decide), h3, h4⟩

/-- C2 counterexample: at the initial state of an empty scan (empty
filtered list, empty query), Enter is not a no-op — it sets the quit
flag, contradicting "should_quit remains false". -/
theorem C2_confirm_noop_counterexample :
    step (App.init [] "tries" none) Key.enter (Except.ok ()) =
      some { App.init [] "tries" none with should_quit := true } ∧
    ({ App.init [] "tries" none with should_quit := true } : App).should_quit =
      true :=
  ⟨rfl, rfl⟩

/-- C2 amended: in Normal mode with an empty filtered list and an empty
query, Enter produces no result (the final selection stays `none`) and
leaves every field but the quit flag unchanged — the mode stays Normal —
but it does set `should_quit`, so the app exits with no selection. -/
theorem C2_confirm_empty_amended (s : App) (fs_remove : Except String Unit)
    (hr : Reachable s) (hm : s.mode = AppMode.Normal)
    (hq : s.should_quit = false) (hnil : s.filtered_entries = [])
    (hquery : s.query = "") :
    ∃ s', step s Key.enter fs_remove = some s' ∧
      s' = { s with should_quit := true } ∧
      s'.mode = AppMode.Normal ∧ s'.final_selection = none ∧
      s'.should_quit = true := by
  have hinv := inv_reachable hr
  refine ⟨{ s with should_quit := true }, ?_, rfl, hm, (hinv.2 hq).2, rfl⟩
  unfold step
  rw [hm, hnil, hquery]
  rfl

/-- C2 amended witness: the amended behaviour at the initial state of an
empty scan. -/
theorem C2_confirm_empty_amended_witness :
    ∃ s', step (App.init [] "tries" none) Key.enter (Except.ok ()) = some s' ∧
      s' = { App.init [] "tries" none with should_quit := true } ∧
      s'.mode = AppMode.Normal ∧ s'.final_selection = none ∧
      s'.should_quit = true :=
  C2_confirm_empty_amended (App.init [] "tries" none) (Except.ok ())
    (Reachable.init [] "tries" none) rfl rfl rfl rfl

/-- C3: in every reachable state the cursor is inside
`[0, len filtered_entries)` whenever the filtered list is non-empty;
cursor-up moves by a saturating decrement (floor 0), cursor-down by an
increment capped at `len - 1`, and every search recomputation resets the
cursor to 0. -/
theorem C3_cursor_in_range :
    (∀ s : App, Reachable s → s.filtered_entries ≠ [] →
      s.selected_index < s.filtered_entries.length) ∧
    (∀ s : App, ∀ fs_remove : Except String Unit, s.mode = AppMode.Normal →
      ∃ s', step s Key.up fs_remove = some s' ∧
        s'.selected_index = s.selected_index - 1 ∧
        s'.filtered_entries = s.filtered_entries) ∧
    (∀ s : App, ∀ fs_remove : Except String Unit, s.mode = AppMode.Normal →
      Reachable s → s.filtered_entries ≠ [] →
      ∃ s', step s Key.down fs_remove = some s' ∧
        s'.selected_index =
          min (s.selected_index + 1) (s.filtered_entries.length - 1) ∧
        s'.filtered_entries = s.filtered_entries) ∧
    (∀ s : App, (App.update_search s).selected_index = 0) := by
  refine ⟨fun s hr => (inv_reachable hr).1, ?_, ?_, fun s => rfl⟩
  · intro s fs_remove hm
    by_cases hpos : s.selected_index > 0
    · refine ⟨{ s with selected_index := s.selected_index - 1 }, ?_, rfl, rfl⟩
      unfold step
      rw [hm]
      rw [if_pos hpos]
    · refine ⟨s, ?_, ?_, rfl⟩
      · unfold step
        rw [hm]
        rw [if_neg hpos]
      · omega
  · intro s fs_remove hm hr hne
    have hlen := (inv_reachable hr).1 hne
    by_cases hlt : s.selected_index < s.filtered_entries.length - 1
    · refine ⟨{ s with selected_index := s.selected_index + 1 }, ?_, ?_, rfl⟩
      · unfold step
        rw [hm]
        rw [if_pos hlt]
      · show s.selected_index + 1 = _
        omega
    · refine ⟨s, ?_, ?_, rfl⟩
      · unfold step
        rw [hm]
        rw [if_neg hlt]
      · omega

/-- C3 witness: the invariant and the saturating cursor moves at a
concrete reachable two-entry state. -/
theorem C3_cursor_in_range_witness :
    (App.init [sampleEntry, sampleEntryB] "tries" none).selected_index <
      (App.init [sampleEntry, sampleEntryB] "tries" none).filtered_entries.length ∧
    (∃ s', step (App.init [sampleEntry, sampleEntryB] "tries" none) Key.up
        (Except.ok ()) = some s' ∧
      s'.selected_index = 0 ∧
      s'.filtered_entries = [sampleEntry, sampleEntryB]) ∧
    (∃ s', step (App.init [sampleEntry, sampleEntryB] "tries" none) Key.down
        (Except.ok ()) = some s' ∧
      s'.selected_index = 1 ∧
      s'.filtered_entries = [sampleEntry, sampleEntryB]) := by
  have h := C3_cursor_in_range
  refine ⟨h.1 _ (Reachable.init [sampleEntry, sampleEntryB] "tries" none)
    (by decide), ?_, ?_⟩
  · rcases h.2.1 (App.init [sampleEntry, sampleEntryB] "tries" none)
      (Except.ok ()) rfl with ⟨s', h1, h2, h3⟩
    exact ⟨s', h1, h2, h3⟩
  · rcases h.2.2.1 (App.init [sampleEntry, sampleEntryB] "tries" none)
      (Except.ok ()) rfl
      (Reachable.init [sampleEntry, sampleEntryB] "tries" none)
      (by decide) with ⟨s', h1, h2, h3⟩
    exact ⟨s', h1, h2, h3⟩

theorem countP_add_countP_not (l : List TryEntry) (p : TryEntry → Bool) :
    l.countP p + l.countP (fun a => !p a) = l.length := by
  induction l with
  | nil => rfl
  | cons x xs ih =>
      rw [List.countP_cons, List.countP_cons, List.length_cons]
      cases h : p x
      · simp only [h, Bool.not_false, if_true, if_false]
        simp
        omega
      · simp only [h, Bool.not_true, if_true, if_false]
        simp
        omega

/-- C7: affirming a deletion whose filesystem removal fails with an I/O
error leaves `all_entries` (and the filtered view) completely unchanged,
sets a non-empty error status message, and returns to Normal mode. -/
theorem C7_delete_failure (s : App) (entry : TryEntry) (err : String)
    (hm : s.mode = AppMode.DeleteConfirm)
    (hsel : s.filtered_entries.get? s.selected_index = some entry) :
    ∃ s', step s (Key.char 'y' false) (Except.error err) = some s' ∧
      s'.all_entries = s.all_entries ∧
      s'.filtered_entries = s.filtered_entries ∧
      s'.status_message = some ("Error deleting: " ++ err) ∧
      ("Error deleting: " ++ err) ≠ "" ∧
      s'.mode = AppMode.Normal := by
  refine ⟨{ s with
      status_message := some ("Error deleting: " ++ err)
      mode := AppMode.Normal },
    ?_, rfl, rfl, rfl, ?_, rfl⟩
  · unfold step App.delete_selected
    rw [hm, hsel]
    rfl
  · intro hcontr
    have hlen := congrArg String.length hcontr
    rw [String.length_append] at hlen
    simp at hlen
    exact absurd hlen.1 (by decide)

/-- C7 witness: a failing removal at a concrete two-entry state in
DeleteConfirm mode. -/
theorem C7_delete_failure_witness :
    ∃ s', step { App.init [sampleEntry, sampleEntryB] "tries" none with
        mode := AppMode.DeleteConfirm } (Key.char 'y' false)
        (Except.error "permission denied") = some s' ∧
      s'.all_entries = [sampleEntry, sampleEntryB] ∧
      s'.filtered_entries = [sampleEntry, sampleEntryB] ∧
      s'.status_message = some ("Error deleting: " ++ "permission denied") ∧
      ("Error deleting: " ++ "permission denied") ≠ "" ∧
      s'.mode = AppMode.Normal :=
  C7_delete_failure
    { App.init [sampleEntry, sampleEntryB] "tries" none with
      mode := AppMode.DeleteConfirm }
    sampleEntry "permission denied" rfl rfl

/-- C8: affirming a deletion whose filesystem removal succeeds removes
exactly the one entry bearing the target's name from `all_entries`
(one entry fewer), rebuilds `filtered_entries` by re-ranking the new
`all_entries` against the unchanged query — so every filtered entry's
name occurs in `all_entries` — and sets a success status containing the
removed path. -/
theorem C8_delete_success (s : App) (entry : TryEntry)
    (hm : s.mode = AppMode.DeleteConfirm)
    (hsel : s.filtered_entries.get? s.selected_index = some entry)
    (hcount : (s.all_entries.countP fun e => e.name == entry.name) = 1) :
    ∃ s', step s (Key.char 'y' false) (Except.ok ()) = some s' ∧
      s'.all_entries = s.all_entries.filter (fun e => e.name != entry.name) ∧
      s'.all_entries.length + 1 = s.all_entries.length ∧
      s'.query = s.query ∧
      s'.filtered_entries = rank s'.all_entries s.query ∧
      (∀ x ∈ s'.filtered_entries, ∃ y ∈ s'.all_entries, y.name = x.name) ∧
      s'.status_message =
        some ("Deleted: " ++ (s.base_path ++ "/" ++ entry.name)) ∧
      s'.mode = AppMode.Normal := by
  refine ⟨{ s with
      all_entries := s.all_entries.filter (fun e => e.name != entry.name),
      filtered_entries :=
        rank (s.all_entries.filter (fun e => e.name != entry.name)) s.query,
      selected_index := 0,
      status_message := some ("Deleted: " ++ (s.base_path ++ "/" ++ entry.name)),
      mode := AppMode.Normal },
    ?_, rfl, ?_, rfl, rfl, ?_, rfl, rfl⟩
  · unfold step App.delete_selected App.update_search
    rw [hm, hsel]
    rfl
  · show (s.all_entries.filter (fun e => e.name != entry.name)).length + 1 =
      s.all_entries.length
    have hfl : (s.all_entries.filter (fun e => e.name != entry.name)).length =
        s.all_entries.countP (fun e => e.name != entry.name) :=
      (List.countP_eq_length_filter _ _).symm
    have hsum := countP_add_countP_not s.all_entries
      (fun e => e.name == entry.name)
    have hbne : (s.all_entries.countP fun e => e.name != entry.name) =
        s.all_entries.countP (fun a => !(a.name == entry.name)) := rfl
    rw [hfl, hbne]
    omega
  · intro x hx
    exact rank_names_sub x hx

/-- C8 witness: a successful removal of `alpha` at a concrete two-entry
state in DeleteConfirm mode. -/
theorem C8_delete_success_witness :
    ∃ s', step { App.init [sampleEntry, sampleEntryB] "tries" none with
        mode := AppMode.DeleteConfirm } (Key.char 'y' false)
        (Except.ok ()) = some s' ∧
      s'.all_entries =
        [sampleEntry, sampleEntryB].filter (fun e => e.name != sampleEntry.name) ∧
      s'.all_entries.length + 1 = ([sampleEntry, sampleEntryB] : List TryEntry).length ∧
      s'.query = "" ∧
      s'.filtered_entries = rank s'.all_entries "" ∧
      (∀ x ∈ s'.filtered_entries, ∃ y ∈ s'.all_entries, y.name = x.name) ∧
      s'.status_message = some ("Deleted: " ++ ("tries" ++ "/" ++ sampleEntry.name)) ∧
      s'.mode = AppMode.Normal :=
  C8_delete_success
    { App.init [sampleEntry, sampleEntryB] "tries" none with
      mode := AppMode.DeleteConfirm }
    sampleEntry rfl rfl (by decide)

/-- C9 counterexample: the claim says a backspace edit also clears the
status message; in the code it does not.  At a reachable state whose
status was set by Ctrl-E without a configured editor, backspace leaves
the message in place. -/
theorem C9_status_clear_counterexample :
    step (App.init [] "tries" none) (Key.char 'e' true) (Except.ok ()) =
      some { App.init [] "tries" none with
        status_message := some "No editor configured in config.toml" } ∧
    step { App.init [] "tries" none with
        status_message := some "No editor configured in config.toml" }
      Key.backspace (Except.ok ()) =
      some { App.init [] "tries" none with
        status_message := some "No editor configured in config.toml" } ∧
    ({ App.init [] "tries" none with
        status_message := some "No editor configured in config.toml" } :
      App).status_message = some "No editor configured in config.toml" :=
  ⟨rfl, by decide, rfl⟩

/-- C9 amended: a query edit by appending a printable (unmodified)
character clears the status message, but a backspace edit leaves the
status message unchanged. -/
theorem C9_status_clear_amended (s : App) (c : Char)
    (fs_remove : Except String Unit) (hm : s.mode = AppMode.Normal) :
    (∃ s', step s (Key.char c false) fs_remove = some s' ∧
      s'.status_message = none ∧ s'.query = s.query.push c) ∧
    (∃ s', step s Key.backspace fs_remove = some s' ∧
      s'.status_message = s.status_message ∧
      s'.query = s.query.dropRight 1) := by
  constructor
  · exact ⟨typeChar c s, step_char_plain s c fs_remove hm, rfl, rfl⟩
  · refine ⟨App.update_search { s with query := s.query.dropRight 1 },
      ?_, rfl, rfl⟩
    unfold step
    rw [hm]

/-- C9 amended witness: the amended behaviour at a concrete state
carrying a status message. -/
theorem C9_status_clear_amended_witness :
    (∃ s', step { App.init [] "tries" none with
        status_message := some "No editor configured in config.toml" }
        (Key.char 'x' false) (Except.ok ()) = some s' ∧
      s'.status_message = none ∧ s'.query = String.push "" 'x') ∧
    (∃ s', step { App.init [] "tries" none with
        status_message := some "No editor configured in config.toml" }
        Key.backspace (Except.ok ()) = some s' ∧
      s'.status_message = some "No editor configured in config.toml" ∧
      s'.query = String.dropRight "" 1) :=
  C9_status_clear_amended
    { App.init [] "tries" none with
      status_message := some "No editor configured in config.toml" }
    'x' (Except.ok ()) rfl

/-- C10: in every reachable state the unchecked index
`filtered_entries[selected_index]` of the Enter and Ctrl-E handlers is in
bounds whenever their `!filtered_entries.is_empty()` guard holds, and no
key-handling step can reach the panic branch (`step` never returns
`none`). -/
theorem C10_index_in_bounds (s : App) (hr : Reachable s) :
    (s.filtered_entries.isEmpty = false →
      (s.filtered_entries.get? s.selected_index).isSome = true) ∧
    ∀ (k : Key) (fs_remove : Except String Unit), step s k fs_remove ≠ none := by
  have hinv := inv_reachable hr
  have hget : s.filtered_entries.isEmpty = false →
      (s.filtered_entries.get? s.selected_index).isSome = true := by
    intro hemp
    have hne : s.filtered_entries ≠ [] := by
      cases hfe : s.filtered_entries with
      | nil => rw [hfe] at hemp; cases hemp
      | cons a as => simp [hfe]
    have hlen := hinv.1 hne
    rw [List.get?_eq_get hlen]
    rfl
  refine ⟨hget, ?_⟩
  intro k fs_remove hnone
  unfold step at hnone
  cases hmode : s.mode <;> rw [hmode] at hnone <;> cases k <;>
    simp only [] at hnone
  case Normal.char c ctrl =>
    by_cases hc : (c == 'c' && ctrl) = true
    · rw [if_pos hc] at hnone; cases hnone
    · rw [if_neg hc] at hnone
      by_cases hd : (c == 'd' && ctrl) = true
      · rw [if_pos hd] at hnone; cases hnone
      · rw [if_neg hd] at hnone
        by_cases he : (c == 'e' && ctrl) = true
        · rw [if_pos he] at hnone
          cases hed : s.editor_cmd with
          | some cmd =>
              rw [hed] at hnone
              by_cases hemp : s.filtered_entries.isEmpty = true
              · simp only [hemp, Bool.not_true, Bool.false_eq_true, if_false]
                  at hnone
                by_cases hq : s.query.isEmpty = true
                · simp only [hq, Bool.not_true, Bool.false_eq_true, if_false]
                    at hnone
                  cases hnone
                · have hq' : s.query.isEmpty = false := by
                    cases hqq : s.query.isEmpty
                    · rfl
                    · exact absurd hqq hq
                  simp only [hq', Bool.not_false, if_true] at hnone
                  cases hnone
              · have hemp' : s.filtered_entries.isEmpty = false := by
                  cases hfe : s.filtered_entries.isEmpty
                  · rfl
                  · exact absurd hfe hemp
                simp only [hemp', Bool.not_false, if_true] at hnone
                rcases Option.isSome_iff_exists.mp (hget hemp') with ⟨entry, hent⟩
                rw [hent] at hnone
                cases hnone
          | none => rw [hed] at hnone; cases hnone
        · rw [if_neg he] at hnone; cases hnone
  case Normal.backspace => cases hnone
  case Normal.up => cases hnone
  case Normal.down => cases hnone
  case Normal.enter =>
    by_cases hemp : s.filtered_entries.isEmpty = true
    · simp only [hemp, Bool.not_true, Bool.false_eq_true, if_false] at hnone
      by_cases hq : s.query.isEmpty = true
      · simp only [hq, Bool.not_true, Bool.false_eq_true, if_false] at hnone
        cases hnone
      · have hq' : s.query.isEmpty = false := by
          cases hqq : s.query.isEmpty
          · rfl
          · exact absurd hqq hq
        simp only [hq', Bool.not_false, if_true] at hnone
        cases hnone
    · have hemp' : s.filtered_entries.isEmpty = false := by
        cases hfe : s.filtered_entries.isEmpty
        · rfl
        · exact absurd hfe hemp
      simp only [hemp', Bool.not_false, if_true] at hnone
      rcases Option.isSome_iff_exists.mp (hget hemp') with ⟨entry, hent⟩
      rw [hent] at hnone
      cases hnone
  case Normal.esc => cases hnone
  case Normal.other => cases hnone
  case DeleteConfirm.char c ctrl =>
    by_cases hy : (c == 'y' || c == 'Y') = true
    · rw [if_pos hy] at hnone; cases hnone
    · rw [if_neg hy] at hnone
      by_cases hn : (c == 'n' || c == 'N') = true
      · rw [if_pos hn] at hnone; cases hnone
      · rw [if_neg hn] at hnone
        by_cases hc : (c == 'c' && ctrl) = true
        · rw [if_pos hc] at hnone; cases hnone
        · rw [if_neg hc] at hnone; cases hnone
  case DeleteConfirm.backspace => cases hnone
  case DeleteConfirm.up => cases hnone
  case DeleteConfirm.down => cases hnone
  case DeleteConfirm.enter => cases hnone
  case DeleteConfirm.esc => cases hnone
  case DeleteConfirm.other => cases hnone

/-- C10 witness: at the initial two-entry state, the guarded index access
is in bounds and the Enter step does not panic. -/
theorem C10_index_in_bounds_witness :
    ((App.init [sampleEntry, sampleEntryB] "tries" none).filtered_entries.isEmpty
        = false →
      ((App.init [sampleEntry, sampleEntryB] "tries"
          none).filtered_entries.get?
        (App.init [sampleEntry, sampleEntryB] "tries"
          none).selected_index).isSome = true) ∧
    ∀ (k : Key) (fs_remove : Except String Unit),
      step (App.init [sampleEntry, sampleEntryB] "tries" none) k fs_remove ≠
        none :=
  C10_index_in_bounds (App.init [sampleEntry, sampleEntryB] "tries" none)
    (Reachable.init [sampleEntry, sampleEntryB] "tries" none)

end TryRs
